import Mathlib

/-!
Verification of the `testcontainers-envtest` adapter
(`testcontainers_envtest/envtest.py`).

The adapter is a thin wrapper around a generic container runtime.  Its own
logic is: resolving a container image from an optional explicit image and an
optional Kubernetes version (Python truthiness applies to the version string),
exposing the fixed API-server port 6443, waiting for a readiness log line,
reading a kubeconfig out of the container, and rewriting loopback `server:`
addresses in it via the regular expression
`server: https://(?:localhost|127\.0\.0\.1):\d+`.

The regex substitution is embedded as a scanner over `List Char`
(`subLoopback`), matching Python `re.sub` semantics: leftmost, non-overlapping
matches over the original text, `\d+` greedy (digits are modelled as ASCII
digits via `Char.isDigit`), and the replacement text is never rescanned.
The two host alternatives `localhost` and `127.0.0.1` differ in their first
character, so the first-successful-alternative strategy used below agrees
with the backtracking behaviour of the Python regex engine.
-/

namespace Envtest

/-- Characters of the literal part `server: https://` of the pattern. -/
def serverHttps : List Char := "server: https://".toList

/-- Characters of the host alternative `localhost`. -/
def lhChars : List Char := "localhost".toList

/-- Characters of the host alternative `127.0.0.1`. -/
def lpChars : List Char := "127.0.0.1".toList

/-- Finish a match of the pattern whose literal prefix and host alternative
`host` have already been recognised at the head of `cs`: require a colon and
then a greedy, non-empty run of digits.  Returns the full matched text and
the remainder of `cs`. -/
def matchHost (host cs : List Char) : Option (List Char × List Char) :=
  let k := serverHttps.length + host.length
  match cs.drop k with
  | ':' :: cs3 =>
    let ds := cs3.takeWhile Char.isDigit
    if ds.isEmpty then none
    else some (serverHttps ++ host ++ ':' :: ds, cs.drop (k + 1 + ds.length))
  | _ => none

/-- Match of the regex `server: https://(?:localhost|127\.0\.0\.1):\d+` at the
head of `cs`; on success returns the matched characters and the rest. -/
def matchLoopback (cs : List Char) : Option (List Char × List Char) :=
  if serverHttps.isPrefixOf cs then
    let cs1 := cs.drop serverHttps.length
    if lhChars.isPrefixOf cs1 then matchHost lhChars cs
    else if lpChars.isPrefixOf cs1 then matchHost lpChars cs
    else none
  else none

/-- Worker of the substitution scan, structurally recursive on the text so
that it evaluates by kernel reduction.  `skip = 0` means "try to match at the
current position"; after replacing a match of length `L` the scanner skips
the remaining `L - 1` matched characters (they were consumed by the match and
are not rescanned, exactly as in `re.sub`). -/
def subGo (repl : List Char) : Nat → List Char → List Char
  | _, [] => []
  | skip + 1, _ :: cs => subGo repl skip cs
  | 0, c :: cs =>
    match matchLoopback (c :: cs) with
    | some (m, _) => repl ++ subGo repl (m.length - 1) cs
    | none => c :: subGo repl 0 cs

/-- Embedding of `re.sub(pattern, repl, text)` for the loopback-server
pattern: scan left to right; at each position either replace a match and
continue after it, or emit the character unchanged. -/
def subLoopback (repl cs : List Char) : List Char :=
  subGo repl 0 cs

/-- Scan of `noLoopbackMatch`: `true` iff the pattern matches at no position
of the text (executable form of "the regex has no occurrence"). -/
def noLoopbackMatch : List Char → Bool
  | [] => true
  | c :: cs => (matchLoopback (c :: cs)).isNone && noLoopbackMatch cs

/-- Leftmost-match decomposition: returns `(gap, matched, rest)` where `gap`
is the maximal match-free prefix scanned by `re.sub`, `matched` the first
match and `rest` the remainder, or `none` when the pattern never matches. -/
def firstMatch : List Char → Option (List Char × List Char × List Char)
  | [] => none
  | c :: cs =>
    match matchLoopback (c :: cs) with
    | some (m, rest) => some ([], m, rest)
    | none =>
      match firstMatch cs with
      | none => none
      | some (g, m, rest) => some (c :: g, m, rest)

/-- Declarative specification of the substitution, for the frame claim:
the output is the input with each leftmost, non-overlapping match of the
loopback-server pattern replaced by `repl`, and every character outside the
matched substrings kept verbatim. -/
inductive SubSpec (repl : List Char) : List Char → List Char → Prop where
  | nomatch (cs : List Char) (h : ∀ i : Nat, matchLoopback (cs.drop i) = none) :
      SubSpec repl cs cs
  | step (g m rest out : List Char)
      (hm : matchLoopback (m ++ rest) = some (m, rest))
      (hg : ∀ i : Nat, i < g.length → matchLoopback ((g ++ m ++ rest).drop i) = none)
      (htail : SubSpec repl rest out) :
      SubSpec repl (g ++ m ++ rest) (g ++ repl ++ out)

/-- Bool test that the head of a list is not an ASCII digit (vacuously true
for the empty list); the remainder after a greedy `\d+` run satisfies it. -/
def headNonDigit : List Char → Bool
  | [] => true
  | c :: _ => !c.isDigit

/-- Characters of the context `server: https://localhost:` that must precede
a digit for the `localhost` host alternative to match. -/
def ctx26 : List Char := "server: https://localhost:".toList

/-- Test that `t` starts with `server: https://localhost:` followed by a
digit, i.e. that the pattern matches at the head of `t` via the `localhost`
alternative. -/
def ctxAt (t : List Char) : Bool :=
  ctx26.isPrefixOf t &&
    (match t.drop ctx26.length with
     | d :: _ => d.isDigit
     | [] => false)

/-- Test that every occurrence of `localhost` in `cs` lies inside a substring
matching `server: https://localhost:<digits>`: each occurrence is preceded by
the 16 literal characters `server: https://` and followed by a colon and a
digit. -/
def lhOnlyInMatches (cs : List Char) : Bool :=
  (List.range cs.length).all fun i =>
    !(lhChars.isPrefixOf (cs.drop i)) || (decide (16 ≤ i) && ctxAt (cs.drop (i - 16)))

/-- Default image constant of `EnvtestContainer`. -/
def DEFAULT_IMAGE : String := "ghcr.io/roma-glushko/testcontainers-envtest:latest"

/-- Default Kubernetes version constant of `EnvtestContainer`. -/
def DEFAULT_KUBERNETES_VERSION : String := "1.31.0"

/-- Fixed in-container API server port constant of `EnvtestContainer`. -/
def API_SERVER_PORT : Nat := 6443

/-- Fixed in-container kubeconfig path constant of `EnvtestContainer`. -/
def KUBECONFIG_PATH : String := "/tmp/kubeconfig"

/-- State of a constructed adapter: the resolved image, the stored
`_kubernetes_version` attribute, the exposed-ports configuration inherited
from `DockerContainer`, and whether the underlying container was started. -/
structure EnvtestContainer where
  image : String
  kubernetes_version : String
  exposed_ports : List Nat
  started : Bool

/-- Embedding of `DockerContainer.with_exposed_ports`: records a port in the
exposed-ports configuration. -/
def with_exposed_ports (c : EnvtestContainer) (port : Nat) : EnvtestContainer :=
  { c with exposed_ports := c.exposed_ports ++ [port] }

/-- Python `value or default` for an optional string argument: `None` and the
empty string are falsy and yield the default. -/
def pyOrDefault (v : Option String) (d : String) : String :=
  match v with
  | none => d
  | some s => if s = "" then d else s

/-- Embedding of `EnvtestContainer.__init__`: stores
`kubernetes_version or DEFAULT_KUBERNETES_VERSION`, resolves the image
(explicit image verbatim; else the versioned tag when a truthy version
differs from the default; else the default image), then exposes the API
server port. -/
def EnvtestContainer.init (image : Option String) (kubernetes_version : Option String) :
    EnvtestContainer :=
  let kv := pyOrDefault kubernetes_version DEFAULT_KUBERNETES_VERSION
  let img :=
    match image with
    | some i => i
    | none =>
      match kubernetes_version with
      | some v =>
        if v ≠ "" ∧ v ≠ DEFAULT_KUBERNETES_VERSION then
          "ghcr.io/roma-glushko/testcontainers-envtest:v" ++ v
        else DEFAULT_IMAGE
      | none => DEFAULT_IMAGE
  with_exposed_ports
    { image := img, kubernetes_version := kv, exposed_ports := [], started := false }
    API_SERVER_PORT

/-- Embedding of `get_api_server_url`: the externally resolved endpoint
`https://<host>:<port>`, with host and mapped port supplied by the container
runtime. -/
def get_api_server_url (host port : String) : String :=
  "https://" ++ host ++ ":" ++ port

/-- Embedding of `get_kubeconfig`.  The in-container `cat` of
`KUBECONFIG_PATH` is represented by its exit code and captured output; a
non-zero exit code raises `RuntimeError` with the output in the message,
otherwise the decoded output is rewritten with the loopback-server
substitution using the resolved endpoint. -/
def get_kubeconfig (exit_code : Int) (output : String) (host port : String) :
    Except String String :=
  if exit_code ≠ 0 then
    Except.error ("Failed to read kubeconfig: " ++ output)
  else
    Except.ok
      (String.mk (subLoopback ("server: " ++ get_api_server_url host port).toList
        output.toList))

/-- Readiness log line waited for by `start`. -/
def READY_MESSAGE : String := "Envtest is ready!"

/-- Fixed readiness timeout, in seconds, passed to the log wait by `start`. -/
def READY_TIMEOUT : Nat := 120

/-- Errors surfaced by `start`. -/
inductive StartError where
  | readinessTimeout (message : String) (timeout : Nat)

/-- Modelled from the spec: the external `wait_for_logs` helper of the
container-runtime library (not part of this repository) blocks until the
given literal log line appears in the container logs or the timeout elapses,
and raises a timeout error in the latter case.  The environment is
represented by the predicate `logsContainWithin message timeout`. -/
def wait_for_logs (logsContainWithin : String → Nat → Bool) (message : String)
    (timeout : Nat) : Except StartError Unit :=
  if logsContainWithin message timeout then Except.ok ()
  else Except.error (StartError.readinessTimeout message timeout)

/-- Embedding of `EnvtestContainer.start`: delegate to the underlying
container start, wait for the readiness line with the fixed timeout, and
return the adapter itself. -/
def EnvtestContainer.start (c : EnvtestContainer)
    (logsContainWithin : String → Nat → Bool) : Except StartError EnvtestContainer :=
  let c1 := { c with started := true }
  match wait_for_logs logsContainWithin READY_MESSAGE READY_TIMEOUT with
  | Except.ok _ => Except.ok c1
  | Except.error e => Except.error e

/-- Message of the `ImportError` raised by `get_kubernetes_client` when the
optional `kubernetes` package is missing. -/
def KUBERNETES_IMPORT_ERROR : String :=
  "The 'kubernetes' package is required. Install it with: pip install testcontainers-envtest[kubernetes]"

/-- Errors surfaced by `get_kubernetes_client`: the dependency-missing
`ImportError`, or the `RuntimeError` propagated from `get_kubeconfig`. -/
inductive ClientError where
  | importError (message : String)
  | runtimeError (message : String)

/-- Result of `get_kubernetes_client`: a client configured from the rewritten
kubeconfig text. -/
structure ApiClient where
  configuration : String

/-- Embedding of `get_kubernetes_client`: the import of the optional
`kubernetes` package is represented by `kubernetes_installed`; when it is
missing an `ImportError` naming the install extra is raised, otherwise the
client is built from the rewritten kubeconfig. -/
def get_kubernetes_client (kubernetes_installed : Bool) (exit_code : Int)
    (output : String) (host port : String) : Except ClientError ApiClient :=
  if kubernetes_installed then
    match get_kubeconfig exit_code output host port with
    | Except.error e => Except.error (ClientError.runtimeError e)
    | Except.ok k => Except.ok ⟨k⟩
  else Except.error (ClientError.importError KUBERNETES_IMPORT_ERROR)

/-- C3: for every explicit image string passed at construction and every
value of the `kubernetes_version` argument, the resolved image of the
constructed adapter equals that explicit string verbatim. -/
theorem claim_C3 (img : String) (kv : Option String) :
    (EnvtestContainer.init (some img) kv).image = img := rfl

/-- C4 counterexample: the claim fails for the version `""`: the empty string
differs from the default version `1.31.0`, yet the resolved image is the
default image, not the versioned tag `ghcr.io/...:v` (Python truthiness
treats the empty version as absent). -/
theorem claim_C4_counterexample :
    ("" : String) ≠ DEFAULT_KUBERNETES_VERSION ∧
    (EnvtestContainer.init none (some "")).image = DEFAULT_IMAGE ∧
    DEFAULT_IMAGE ≠ "ghcr.io/roma-glushko/testcontainers-envtest:v" ++ "" := by
  refine ⟨by decide, rfl, by decide⟩

/-- C4 amended: when no explicit image is given, a non-empty version that
differs from the default yields the versioned tag, and no version, an empty
version, or the default version yields the default image constant. -/
theorem claim_C4 (v : String) :
    (v ≠ "" → v ≠ DEFAULT_KUBERNETES_VERSION →
      (EnvtestContainer.init none (some v)).image =
        "ghcr.io/roma-glushko/testcontainers-envtest:v" ++ v) ∧
    (EnvtestContainer.init none none).image = DEFAULT_IMAGE ∧
    (EnvtestContainer.init none (some "")).image = DEFAULT_IMAGE ∧
    (EnvtestContainer.init none (some DEFAULT_KUBERNETES_VERSION)).image = DEFAULT_IMAGE := by
  refine ⟨fun h1 h2 => ?_, rfl, rfl, ?_⟩
  · simp only [EnvtestContainer.init, with_exposed_ports]
    rw [if_pos ⟨h1, h2⟩]
  · simp only [EnvtestContainer.init, with_exposed_ports]
    rw [if_neg (by simp)]

/-- C4 witness: instantiation of the amended claim at the version `1.30.0`. -/
theorem claim_C4_witness :
    ("1.30.0" : String) ≠ "" ∧ ("1.30.0" : String) ≠ DEFAULT_KUBERNETES_VERSION ∧
    (EnvtestContainer.init none (some "1.30.0")).image =
      "ghcr.io/roma-glushko/testcontainers-envtest:v" ++ "1.30.0" :=
  ⟨by decide, by decide, (claim_C4 "1.30.0").1 (by decide) (by decide)⟩

/-- C5: `get_kubeconfig` fails with an error whose message includes the
captured command output if and only if the in-container read exits with a
non-zero status; on a zero exit status it returns the decoded output with
the loopback-server substitution applied. -/
theorem claim_C5 (ec : Int) (out host port : String) :
    ((∃ e, get_kubeconfig ec out host port = Except.error e ∧
        out.toList <:+: e.toList) ↔ ec ≠ 0) ∧
    (ec = 0 → get_kubeconfig ec out host port =
      Except.ok (String.mk (subLoopback
        ("server: " ++ get_api_server_url host port).toList out.toList))) := by
  constructor
  · constructor
    · rintro ⟨e, he, -⟩ h0
      simp [get_kubeconfig, h0] at he
    · intro hne
      refine ⟨"Failed to read kubeconfig: " ++ out, by simp [get_kubeconfig, hne], ?_⟩
      refine ⟨"Failed to read kubeconfig: ".toList, [], ?_⟩
      simp
  · intro h0
    simp [get_kubeconfig, h0]

/-- C5 witness: instantiation at a failing read (exit code 1) and at a
successful read (exit code 0). -/
theorem claim_C5_witness :
    (∃ e, get_kubeconfig 1 "boom" "h" "p" = Except.error e ∧
      ("boom" : String).toList <:+: e.toList) ∧
    get_kubeconfig 0 "boom" "h" "p" =
      Except.ok (String.mk (subLoopback
        ("server: " ++ get_api_server_url "h" "p").toList ("boom" : String).toList)) :=
  ⟨(claim_C5 1 "boom" "h" "p").1.mpr (by decide), (claim_C5 0 "boom" "h" "p").2 rfl⟩

/-- C6: `start` delegates to the underlying container start and then waits
for the literal log line `Envtest is ready!` with the fixed 120-second
timeout; on success it returns the started adapter itself, and on timeout it
fails with a readiness-timeout error. -/
theorem claim_C6 (c : EnvtestContainer) (f : String → Nat → Bool) :
    (READY_MESSAGE = "Envtest is ready!" ∧ READY_TIMEOUT = 120) ∧
    (f "Envtest is ready!" 120 = true →
      c.start f = Except.ok { c with started := true }) ∧
    (f "Envtest is ready!" 120 = false →
      c.start f = Except.error
        (StartError.readinessTimeout "Envtest is ready!" 120)) := by
  refine ⟨⟨rfl, rfl⟩, fun h => ?_, fun h => ?_⟩ <;>
    simp [EnvtestContainer.start, wait_for_logs, READY_MESSAGE, READY_TIMEOUT, h]

/-- C6 witness: instantiation on a log stream that does contain the readiness
line and on one that never does. -/
theorem claim_C6_witness :
    (EnvtestContainer.init none none).start (fun _ _ => true) =
      Except.ok { EnvtestContainer.init none none with started := true } ∧
    (EnvtestContainer.init none none).start (fun _ _ => false) =
      Except.error (StartError.readinessTimeout "Envtest is ready!" 120) :=
  ⟨(claim_C6 _ _).2.1 rfl, (claim_C6 _ _).2.2 rfl⟩

/-- C7: `get_kubernetes_client` fails with a dependency-missing error whose
message names the install extra `testcontainers-envtest[kubernetes]` if and
only if the optional `kubernetes` package is not installed at call time. -/
theorem claim_C7 (installed : Bool) (ec : Int) (out host port : String) :
    (∃ m, get_kubernetes_client installed ec out host port =
        Except.error (ClientError.importError m) ∧
      "testcontainers-envtest[kubernetes]".toList <:+: m.toList) ↔
    installed = false := by
  constructor
  · rintro ⟨m, hm, -⟩
    cases installed with
    | false => rfl
    | true =>
      exfalso
      simp only [get_kubernetes_client, if_pos rfl] at hm
      rcases h : get_kubeconfig ec out host port with e | k <;> rw [h] at hm <;> simp at hm
  · rintro rfl
    refine ⟨KUBERNETES_IMPORT_ERROR, rfl, ?_⟩
    refine ⟨"The 'kubernetes' package is required. Install it with: pip install ".toList,
      [], by decide⟩

/-- C7 witness: instantiation with the package missing and with it present. -/
theorem claim_C7_witness :
    (∃ m, get_kubernetes_client false 0 "" "h" "p" =
        Except.error (ClientError.importError m) ∧
      "testcontainers-envtest[kubernetes]".toList <:+: m.toList) ∧
    ¬(∃ m, get_kubernetes_client true 0 "" "h" "p" =
        Except.error (ClientError.importError m) ∧
      "testcontainers-envtest[kubernetes]".toList <:+: m.toList) :=
  ⟨(claim_C7 false 0 "" "h" "p").mpr rfl,
   fun h => Bool.noConfusion ((claim_C7 true 0 "" "h" "p").mp h)⟩

/-- C8: for every combination of image and version arguments, the
exposed-ports configuration contains port 6443 immediately after
construction. -/
theorem claim_C8 (img kv : Option String) :
    6443 ∈ (EnvtestContainer.init img kv).exposed_ports := by
  simp [EnvtestContainer.init, with_exposed_ports, API_SERVER_PORT]

/-- C10: the `kubernetes_version` property is decided solely by the
`kubernetes_version` constructor argument: it equals the argument when that
argument is a non-empty string and the default `1.31.0` otherwise, and it is
independent of the image argument. -/
theorem claim_C10 (img : Option String) (kv : Option String) :
    ((EnvtestContainer.init img kv).kubernetes_version =
      match kv with
      | some v => if v = "" then "1.31.0" else v
      | none => "1.31.0") ∧
    (EnvtestContainer.init img kv).kubernetes_version =
      (EnvtestContainer.init none kv).kubernetes_version ∧
    DEFAULT_KUBERNETES_VERSION = "1.31.0" := by
  refine ⟨?_, rfl, rfl⟩
  cases kv with
  | none => rfl
  | some v =>
    simp only [EnvtestContainer.init, with_exposed_ports, pyOrDefault,
      DEFAULT_KUBERNETES_VERSION]

theorem matchLoopback_nil : matchLoopback [] = none := by decide

theorem not_lh_pref_lp (w : List Char) : ¬ (lhChars <+: lpChars ++ w) := by
  rintro ⟨t, ht⟩
  have h2 : 'l' :: ("ocalhost".toList ++ t) = '1' :: ("27.0.0.1".toList ++ w) := ht
  simp at h2

theorem headNonDigit_dropWhile (l : List Char) :
    headNonDigit (l.dropWhile Char.isDigit) = true := by
  induction l with
  | nil => rfl
  | cons c l ih =>
    rw [List.dropWhile_cons]
    split
    · exact ih
    · next h => simp [headNonDigit, h]

theorem drop_takeWhile_len (l : List Char) (p : Char → Bool) :
    l.drop (l.takeWhile p).length = l.dropWhile p := by
  have h := List.takeWhile_append_dropWhile (p := p) (l := l)
  calc l.drop (l.takeWhile p).length
      = (l.takeWhile p ++ l.dropWhile p).drop (l.takeWhile p).length := by rw [h]
    _ = l.dropWhile p := List.drop_left _ _

theorem takeWhile_digits_append {ds X : List Char}
    (hdig : ∀ c ∈ ds, c.isDigit = true) (hX : headNonDigit X = true) :
    (ds ++ X).takeWhile Char.isDigit = ds := by
  rw [List.takeWhile_append_of_pos hdig]
  cases X with
  | nil => simp
  | cons c X =>
    have hc : ¬ (Char.isDigit c = true) := by
      simp only [headNonDigit] at hX
      simp [Bool.not_eq_true] at hX
      simp [hX]
    rw [List.takeWhile_cons_of_neg hc]
    simp

theorem matchHost_some {host cs m rest : List Char}
    (h : matchHost host cs = some (m, rest)) :
    ∃ ds, ds ≠ [] ∧ (∀ c ∈ ds, c.isDigit = true) ∧
      m = serverHttps ++ host ++ ':' :: ds ∧
      cs.drop (serverHttps.length + host.length) = ':' :: (ds ++ rest) ∧
      headNonDigit rest = true := by
  simp only [matchHost] at h
  split at h
  · next cs3 heq =>
    split at h
    · exact absurd h (by simp)
    · next hne =>
      simp only [Option.some.injEq, Prod.mk.injEq] at h
      obtain ⟨hm, hrest⟩ := h
      have hdrop : cs.drop (serverHttps.length + host.length + 1 +
          (cs3.takeWhile Char.isDigit).length) =
          cs3.drop (cs3.takeWhile Char.isDigit).length := by
        rw [show serverHttps.length + host.length + 1 + (cs3.takeWhile Char.isDigit).length
            = (serverHttps.length + host.length) + ((cs3.takeWhile Char.isDigit).length + 1)
          from by omega]
        rw [← List.drop_drop, heq]
        exact List.drop_succ_cons
      have hrest2 : rest = cs3.drop (cs3.takeWhile Char.isDigit).length := by
        rw [← hrest, hdrop]
      have hcs3 : cs3 = cs3.takeWhile Char.isDigit ++ rest := by
        rw [hrest2, drop_takeWhile_len]
        exact (List.takeWhile_append_dropWhile (p := Char.isDigit) (l := cs3)).symm
      refine ⟨cs3.takeWhile Char.isDigit, ?_, ?_, hm.symm, ?_, ?_⟩
      · intro hnil
        simp [List.isEmpty_iff, hnil] at hne
      · intro c hc
        exact List.mem_takeWhile_imp hc
      · rw [heq]
        congr 1
      · rw [hrest2, drop_takeWhile_len]
        exact headNonDigit_dropWhile cs3
  · exact absurd h (by simp)

theorem drop_add (l : List Char) (a b : Nat) : l.drop (a + b) = (l.drop a).drop b := by
  simp [List.drop_drop, Nat.add_comm]

theorem cs_eq_decomp {cs host ds rest : List Char}
    (h1 : serverHttps <+: cs)
    (h2 : host <+: cs.drop serverHttps.length)
    (h3 : cs.drop (serverHttps.length + host.length) = ':' :: (ds ++ rest)) :
    cs = (serverHttps ++ host ++ ':' :: ds) ++ rest := by
  obtain ⟨t1, ht1⟩ := h1
  have ht1d : cs.drop serverHttps.length = t1 := by
    rw [← ht1]
    exact List.drop_left _ _
  obtain ⟨t2, ht2⟩ := h2
  have ht2d : cs.drop (serverHttps.length + host.length) = t2 := by
    rw [drop_add, ht1d, (ht2.trans ht1d).symm]
    exact List.drop_left _ _
  have ht2v : t2 = ':' :: (ds ++ rest) := ht2d.symm.trans h3
  have : cs = serverHttps ++ (host ++ t2) := by rw [ht2, ht1d, ht1]
  rw [this, ht2v]
  simp

theorem matchLoopback_some {cs m rest : List Char}
    (h : matchLoopback cs = some (m, rest)) :
    ∃ host ds, (host = lhChars ∨ host = lpChars) ∧ ds ≠ [] ∧
      (∀ c ∈ ds, c.isDigit = true) ∧ m = serverHttps ++ host ++ ':' :: ds ∧
      cs = m ++ rest ∧ headNonDigit rest = true := by
  simp only [matchLoopback] at h
  split at h
  · next hsh =>
    split at h
    · next hlh =>
      obtain ⟨ds, hne, hdig, hm, hdr, hnd⟩ := matchHost_some h
      refine ⟨lhChars, ds, Or.inl rfl, hne, hdig, hm, ?_, hnd⟩
      rw [hm]
      exact cs_eq_decomp (List.isPrefixOf_iff_prefix.mp hsh)
        (List.isPrefixOf_iff_prefix.mp hlh) hdr
    · split at h
      · next hlp =>
        obtain ⟨ds, hne, hdig, hm, hdr, hnd⟩ := matchHost_some h
        refine ⟨lpChars, ds, Or.inr rfl, hne, hdig, hm, ?_, hnd⟩
        rw [hm]
        exact cs_eq_decomp (List.isPrefixOf_iff_prefix.mp hsh)
          (List.isPrefixOf_iff_prefix.mp hlp) hdr
      · exact absurd h (by simp)
  · exact absurd h (by simp)

theorem matchHost_build {host cs ds X : List Char} (hds : ds ≠ [])
    (hdig : ∀ c ∈ ds, c.isDigit = true) (hX : headNonDigit X = true)
    (hcs : cs.drop (serverHttps.length + host.length) = ':' :: (ds ++ X)) :
    matchHost host cs = some (serverHttps ++ host ++ ':' :: ds, X) := by
  simp only [matchHost]
  split
  · next cs3 heq =>
    have hc3 : cs3 = ds ++ X := by
      have := heq.symm.trans hcs
      injection this
    subst hc3
    rw [takeWhile_digits_append hdig hX]
    rw [if_neg (by simp [List.isEmpty_iff, hds])]
    simp only [Option.some.injEq, Prod.mk.injEq, true_and]
    rw [show serverHttps.length + host.length + 1 + ds.length
        = (serverHttps.length + host.length) + (ds.length + 1) from by omega]
    rw [drop_add, hcs, List.drop_succ_cons]
    exact List.drop_left _ _
  · next heq =>
    exact (heq _ hcs).elim

theorem matchLoopback_build {host ds X : List Char}
    (hhost : host = lhChars ∨ host = lpChars) (hds : ds ≠ [])
    (hdig : ∀ c ∈ ds, c.isDigit = true) (hX : headNonDigit X = true) :
    matchLoopback (serverHttps ++ host ++ ':' :: (ds ++ X)) =
      some (serverHttps ++ host ++ ':' :: ds, X) := by
  have hdropsh : (serverHttps ++ host ++ ':' :: (ds ++ X)).drop serverHttps.length
      = host ++ ':' :: (ds ++ X) := List.drop_left _ _
  have hdrophost : (serverHttps ++ host ++ ':' :: (ds ++ X)).drop
      (serverHttps.length + host.length) = ':' :: (ds ++ X) := by
    rw [drop_add, hdropsh]
    exact List.drop_left _ _
  simp only [matchLoopback]
  have h1 : serverHttps.isPrefixOf (serverHttps ++ host ++ ':' :: (ds ++ X)) = true :=
    List.isPrefixOf_iff_prefix.mpr ⟨host ++ ':' :: (ds ++ X), rfl⟩
  rw [if_pos h1]
  rcases hhost with rfl | rfl
  · have h2 : lhChars.isPrefixOf
        ((serverHttps ++ lhChars ++ ':' :: (ds ++ X)).drop serverHttps.length) = true := by
      rw [hdropsh]
      exact List.isPrefixOf_iff_prefix.mpr ⟨_, rfl⟩
    rw [if_pos h2]
    exact matchHost_build hds hdig hX hdrophost
  · have h2 : ¬ (lhChars.isPrefixOf
        ((serverHttps ++ lpChars ++ ':' :: (ds ++ X)).drop serverHttps.length) = true) := by
      rw [hdropsh]
      intro hb
      exact not_lh_pref_lp _ (List.isPrefixOf_iff_prefix.mp hb)
    rw [if_neg h2]
    have h3 : lpChars.isPrefixOf
        ((serverHttps ++ lpChars ++ ':' :: (ds ++ X)).drop serverHttps.length) = true := by
      rw [hdropsh]
      exact List.isPrefixOf_iff_prefix.mpr ⟨_, rfl⟩
    rw [if_pos h3]
    exact matchHost_build hds hdig hX hdrophost

theorem matchHost_isSome {host cs t : List Char} {d : Char}
    (hdr : cs.drop (serverHttps.length + host.length) = ':' :: d :: t)
    (hd : d.isDigit = true) : (matchHost host cs).isSome = true := by
  simp only [matchHost]
  split
  · next cs3 heq =>
    have hc3 : cs3 = d :: t := by
      have := heq.symm.trans hdr
      injection this
    subst hc3
    rw [List.takeWhile_cons_of_pos hd]
    rw [if_neg (by simp)]
    rfl
  · next heq =>
    exact (heq _ hdr).elim

theorem matchLoopback_isSome {cs : List Char} :
    (matchLoopback cs).isSome = true ↔
    ∃ host d, (host = lhChars ∨ host = lpChars) ∧ d.isDigit = true ∧
      (serverHttps ++ host ++ ':' :: [d]) <+: cs := by
  constructor
  · intro hs
    obtain ⟨⟨m, rest⟩, hp⟩ := Option.isSome_iff_exists.mp hs
    obtain ⟨host, ds, hhost, hne, hdig, hm, hcs, -⟩ := matchLoopback_some hp
    cases ds with
    | nil => exact absurd rfl hne
    | cons d ds2 =>
      refine ⟨host, d, hhost, hdig d (by simp), ⟨ds2 ++ rest, ?_⟩⟩
      rw [hcs, hm]
      simp
  · rintro ⟨host, d, hhost, hd, ⟨t, ht⟩⟩
    have hshape : cs = serverHttps ++ (host ++ ':' :: d :: t) := by
      rw [← ht]
      simp
    have hsh : serverHttps.isPrefixOf cs = true :=
      List.isPrefixOf_iff_prefix.mpr ⟨host ++ ':' :: d :: t, hshape.symm⟩
    have hdropsh : cs.drop serverHttps.length = host ++ ':' :: d :: t := by
      rw [hshape]
      exact List.drop_left _ _
    have hdrophost : cs.drop (serverHttps.length + host.length) = ':' :: d :: t := by
      rw [drop_add, hdropsh]
      exact List.drop_left _ _
    simp only [matchLoopback]
    rw [if_pos hsh]
    rcases hhost with rfl | rfl
    · have h2 : lhChars.isPrefixOf (cs.drop serverHttps.length) = true := by
        rw [hdropsh]
        exact List.isPrefixOf_iff_prefix.mpr ⟨_, rfl⟩
      rw [if_pos h2]
      exact matchHost_isSome hdrophost hd
    · have h2 : ¬ (lhChars.isPrefixOf (cs.drop serverHttps.length) = true) := by
        rw [hdropsh]
        intro hb
        exact not_lh_pref_lp _ (List.isPrefixOf_iff_prefix.mp hb)
      rw [if_neg h2]
      have h3 : lpChars.isPrefixOf (cs.drop serverHttps.length) = true := by
        rw [hdropsh]
        exact List.isPrefixOf_iff_prefix.mpr ⟨_, rfl⟩
      rw [if_pos h3]
      exact matchHost_isSome hdrophost hd

theorem firstMatch_none {cs : List Char} (h : firstMatch cs = none) :
    ∀ i, matchLoopback (cs.drop i) = none := by
  induction cs with
  | nil =>
    intro i
    rw [List.drop_nil]
    exact matchLoopback_nil
  | cons c cs ih =>
    intro i
    simp only [firstMatch] at h
    split at h
    · exact absurd h (by simp)
    · next hm =>
      cases i with
      | zero => exact hm
      | succ i =>
        rw [List.drop_succ_cons]
        apply ih _ i
        split at h
        · next hf => exact hf
        · exact absurd h (by simp)

theorem firstMatch_some {cs g m rest : List Char}
    (h : firstMatch cs = some (g, m, rest)) :
    cs = g ++ m ++ rest ∧ matchLoopback (m ++ rest) = some (m, rest) ∧
      ∀ i, i < g.length → matchLoopback (cs.drop i) = none := by
  induction cs generalizing g with
  | nil => exact absurd h (by simp [firstMatch])
  | cons c cs ih =>
    simp only [firstMatch] at h
    split at h
    · next m2 rest2 hm =>
      simp only [Option.some.injEq, Prod.mk.injEq] at h
      obtain ⟨hg, hm2, hrest2⟩ := h
      subst hg hm2 hrest2
      obtain ⟨host2, ds2, -, -, -, -, hcseq, -⟩ := matchLoopback_some hm
      refine ⟨by simpa using hcseq, by rw [← hcseq]; exact hm, ?_⟩
      intro i hi
      simp at hi
    · next hnone =>
      split at h
      · exact absurd h (by simp)
      · next g2 m2 rest2 hf =>
        simp only [Option.some.injEq, Prod.mk.injEq] at h
        obtain ⟨hg, hm2, hrest2⟩ := h
        subst hm2 hrest2
        obtain ⟨hceq, hmm, hgap⟩ := ih hf
        subst hg
        refine ⟨by rw [hceq]; simp, hmm, ?_⟩
        intro i hi
        cases i with
        | zero => exact hnone
        | succ i =>
          rw [List.drop_succ_cons]
          exact hgap i (by simpa using hi)

theorem noLoopbackMatch_iff_firstMatch {cs : List Char} :
    noLoopbackMatch cs = true ↔ firstMatch cs = none := by
  induction cs with
  | nil => simp [noLoopbackMatch, firstMatch]
  | cons c cs ih =>
    simp only [noLoopbackMatch, firstMatch, Bool.and_eq_true]
    split
    · next hm => simp [hm]
    · next hm =>
      simp only [hm, Option.isNone_none, true_and]
      rw [ih]
      cases hf : firstMatch cs <;> simp

theorem subGo_skip (repl : List Char) :
    ∀ cs k, subGo repl k cs = subGo repl 0 (cs.drop k) := by
  intro cs
  induction cs with
  | nil =>
    intro k
    rw [List.drop_nil]
    cases k <;> rfl
  | cons c cs ih =>
    intro k
    cases k with
    | zero => rfl
    | succ k =>
      rw [List.drop_succ_cons]
      exact ih k

theorem subLoopback_nil (repl : List Char) : subLoopback repl [] = [] := rfl

theorem subLoopback_cons_of_none {repl : List Char} {c : Char} {cs : List Char}
    (h : matchLoopback (c :: cs) = none) :
    subLoopback repl (c :: cs) = c :: subLoopback repl cs := by
  simp only [subLoopback, subGo, h]

theorem subLoopback_match {repl cs m rest : List Char}
    (h : matchLoopback cs = some (m, rest)) :
    subLoopback repl cs = repl ++ subLoopback repl rest := by
  obtain ⟨host, ds, hhost, hds, hdig, hm, hcseq, hnd⟩ := matchLoopback_some h
  have hmlen : 0 < m.length := by
    rw [hm]
    simp
  cases cs with
  | nil =>
    rw [matchLoopback_nil] at h
    exact absurd h (by simp)
  | cons c cs =>
    simp only [subLoopback, subGo, h]
    congr 1
    rw [subGo_skip]
    congr 1
    have : cs.drop (m.length - 1) = (c :: cs).drop m.length := by
      conv_rhs => rw [show m.length = (m.length - 1) + 1 from by omega]
      rw [List.drop_succ_cons]
    rw [this, hcseq]
    exact List.drop_left _ _

theorem subLoopback_of_no_match {repl cs : List Char} (h : firstMatch cs = none) :
    subLoopback repl cs = cs := by
  induction cs with
  | nil => rfl
  | cons c cs ih =>
    simp only [firstMatch] at h
    split at h
    · exact absurd h (by simp)
    · next hm =>
      rw [subLoopback_cons_of_none hm]
      congr 1
      apply ih
      split at h
      · next hf => exact hf
      · exact absurd h (by simp)

theorem subLoopback_decomp {repl cs g m rest : List Char}
    (hf : firstMatch cs = some (g, m, rest)) :
    subLoopback repl cs = g ++ (repl ++ subLoopback repl rest) := by
  induction cs generalizing g with
  | nil => exact absurd hf (by simp [firstMatch])
  | cons c cs ih =>
    simp only [firstMatch] at hf
    split at hf
    · next m2 rest2 hm =>
      simp only [Option.some.injEq, Prod.mk.injEq] at hf
      obtain ⟨hg, hm2, hrest2⟩ := hf
      subst hg hm2 hrest2
      rw [subLoopback_match hm]
      simp
    · next hnone =>
      split at hf
      · exact absurd hf (by simp)
      · next g2 m2 rest2 hf2 =>
        simp only [Option.some.injEq, Prod.mk.injEq] at hf
        obtain ⟨hg, hm2, hrest2⟩ := hf
        subst hm2 hrest2 hg
        rw [subLoopback_cons_of_none hnone, ih hf2]
        rfl
theorem serverHttps_len : serverHttps.length = 16 := by decide

theorem subSpec_subLoopback (repl : List Char) :
    ∀ cs, SubSpec repl cs (subLoopback repl cs) := by
  have main : ∀ n cs, cs.length ≤ n → SubSpec repl cs (subLoopback repl cs) := by
    intro n
    induction n with
    | zero =>
      intro cs hlen
      have hnil : cs = [] := List.eq_nil_of_length_eq_zero (Nat.le_zero.mp hlen)
      subst hnil
      rw [subLoopback_nil]
      exact SubSpec.nomatch [] (fun i => by rw [List.drop_nil]; exact matchLoopback_nil)
    | succ n ih =>
      intro cs hlen
      cases hf : firstMatch cs with
      | none =>
        rw [subLoopback_of_no_match hf]
        exact SubSpec.nomatch cs (firstMatch_none hf)
      | some gmr =>
        obtain ⟨g, m, rest⟩ := gmr
        obtain ⟨hceq, hmm, hgap⟩ := firstMatch_some hf
        rw [subLoopback_decomp hf, hceq, ← List.append_assoc]
        refine SubSpec.step g m rest _ hmm ?_ (ih rest ?_)
        · intro i hi
          rw [← hceq]
          exact hgap i hi
        · have h1 : 16 ≤ m.length := by
            obtain ⟨host, ds, -, -, -, hm, -, -⟩ := matchLoopback_some hmm
            rw [hm]
            simp only [List.length_append, List.length_cons, serverHttps_len]
            omega
          have h2 := congrArg List.length hceq
          simp only [List.length_append] at h2
          omega
  exact fun cs => main cs.length cs (Nat.le_refl _)

/-- C1: the credentials rewrite substitutes exactly the leftmost,
non-overlapping matches of `server: https://(?:localhost|127\.0\.0\.1):\d+`
with the replacement text, keeping every character outside the matched
substrings verbatim (the `SubSpec` decomposition); in particular a text
with no match anywhere, such as one whose `server:` lines point at
non-loopback addresses, is returned unchanged. -/
theorem claim_C1 (repl cs : List Char) :
    SubSpec repl cs (subLoopback repl cs) ∧
    (noLoopbackMatch cs = true → subLoopback repl cs = cs) :=
  ⟨subSpec_subLoopback repl cs,
   fun h => subLoopback_of_no_match (noLoopbackMatch_iff_firstMatch.mp h)⟩

/-- C1 witness: a kubeconfig whose server line points at a non-loopback
address has no match and is left untouched by the rewrite. -/
theorem claim_C1_witness :
    noLoopbackMatch "server: https://kubernetes.default:443".toList = true ∧
    subLoopback ("server: " ++ get_api_server_url "203.0.113.5" "32768").toList
        "server: https://kubernetes.default:443".toList =
      "server: https://kubernetes.default:443".toList :=
  ⟨by decide, (claim_C1 _ _).2 (by decide)⟩

theorem pref_of_append {p a b : List Char} (h : p <+: a ++ b) :
    (p.length ≤ a.length ∧ p <+: a) ∨
    (a.length < p.length ∧ a <+: p ∧ p.drop a.length <+: b) := by
  rcases le_or_lt p.length a.length with hle | hlt
  · left
    refine ⟨hle, ?_⟩
    have hp := List.prefix_iff_eq_take.mp h
    rw [List.take_append_eq_append_take, Nat.sub_eq_zero_of_le hle, List.take_zero,
      List.append_nil] at hp
    rw [hp]
    exact List.take_prefix _ _
  · right
    refine ⟨hlt, ?_, ?_⟩
    · have hp := List.prefix_iff_eq_take.mp h
      have htk : p.take a.length = a := by
        rw [hp, List.take_take, min_eq_left (le_of_lt hlt)]
        exact List.take_left a b
      exact List.prefix_iff_eq_take.mpr htk.symm
    · have h2 := h.drop a.length
      rwa [List.drop_left] at h2

theorem infix_iff_drop {l u : List Char} : l <:+: u ↔ ∃ i, l <+: u.drop i := by
  constructor
  · rintro ⟨s, t, h⟩
    refine ⟨s.length, ?_⟩
    rw [← h, List.append_assoc, List.drop_left]
    exact ⟨t, rfl⟩
  · rintro ⟨i, ⟨t, ht⟩⟩
    refine ⟨u.take i, t, ?_⟩
    rw [List.append_assoc, ht]
    exact List.take_append_drop i u

theorem getLast_mem_suffix {s l : List Char} (h : s <:+ l) (hs : s ≠ []) (hl : l ≠ []) :
    l.getLast hl ∈ s := by
  obtain ⟨t, ht⟩ := h
  subst ht
  rw [List.getLast_append' t s hs]
  exact List.getLast_mem hs

theorem lhOnly_spec {cs : List Char} (h : lhOnlyInMatches cs = true) :
    ∀ i, lhChars <+: cs.drop i → 16 ≤ i ∧ ctxAt (cs.drop (i - 16)) = true := by
  intro i hp
  by_cases hi : i < cs.length
  · have hall := (List.all_eq_true.mp h) i (List.mem_range.mpr hi)
    simp only [Bool.or_eq_true, Bool.not_eq_true', Bool.and_eq_true,
      decide_eq_true_eq] at hall
    rcases hall with hfalse | hok
    · rw [List.isPrefixOf_iff_prefix.mpr hp] at hfalse
      exact absurd hfalse (by simp)
    · exact hok
  · exfalso
    have : cs.drop i = [] := List.drop_of_length_le (le_of_not_lt hi)
    rw [this] at hp
    have := List.prefix_nil.mp hp
    exact absurd this (by decide)

theorem ctxAt_match {t : List Char} (h : ctxAt t = true) :
    (matchLoopback t).isSome = true := by
  simp only [ctxAt, Bool.and_eq_true] at h
  obtain ⟨h1, h2⟩ := h
  rw [matchLoopback_isSome]
  cases hd : t.drop ctx26.length with
  | nil =>
    rw [hd] at h2
    exact absurd h2 (by simp)
  | cons d t2 =>
    rw [hd] at h2
    refine ⟨lhChars, d, Or.inl rfl, h2, ?_⟩
    obtain ⟨w, hw⟩ := List.isPrefixOf_iff_prefix.mp h1
    have hwd : w = d :: t2 := by
      rw [← hd, ← hw]
      exact (List.drop_left _ _).symm
    refine ⟨t2, ?_⟩
    rw [← hw, hwd]
    rw [show ctx26 = serverHttps ++ lhChars ++ [':'] from by decide]
    simp

theorem ctx26_no_digit : ∀ c ∈ ctx26, c.isDigit = false := by decide

theorem lOnly_rest {cs g m rest : List Char} (hf : firstMatch cs = some (g, m, rest))
    (hl : ∀ i, lhChars <+: cs.drop i → 16 ≤ i ∧ ctxAt (cs.drop (i - 16)) = true) :
    ∀ p, lhChars <+: rest.drop p → 16 ≤ p ∧ ctxAt (rest.drop (p - 16)) = true := by
  obtain ⟨hceq, hmm, -⟩ := firstMatch_some hf
  obtain ⟨host, ds, hhost, hds, hdig, hm, -, -⟩ := matchLoopback_some hmm
  have hhostlen : host.length = 9 := by rcases hhost with rfl | rfl <;> decide
  have hds1 : 1 ≤ ds.length := List.length_pos.mpr hds
  have hmlen : m.length = 26 + ds.length := by
    rw [hm]
    simp only [List.length_append, List.length_cons, serverHttps_len, hhostlen]
    omega
  have hdropN : ∀ q, cs.drop ((g ++ m).length + q) = rest.drop q := by
    intro q
    rw [hceq]
    exact List.drop_append q
  intro p hp
  have hp2 : lhChars <+: cs.drop ((g ++ m).length + p) := by
    rw [hdropN]
    exact hp
  obtain ⟨h16, hctx⟩ := hl _ hp2
  by_cases hple : 16 ≤ p
  · refine ⟨hple, ?_⟩
    have harith : (g ++ m).length + p - 16 = (g ++ m).length + (p - 16) := by omega
    rw [harith, hdropN] at hctx
    exact hctx
  · exfalso
    push_neg at hple
    have hN : 27 ≤ (g ++ m).length := by
      simp only [List.length_append]
      omega
    set q := (g ++ m).length + p - 16 with hqdef
    simp only [ctxAt, Bool.and_eq_true] at hctx
    have hpre : ctx26 <+: cs.drop q := List.isPrefixOf_iff_prefix.mp hctx.1
    have hsplit : cs.drop q = (g ++ m).drop q ++ rest.drop (q - (g ++ m).length) := by
      rw [hceq]
      exact List.drop_append_eq_append_drop
    rw [hsplit] at hpre
    have hAlen : ((g ++ m).drop q).length = 16 - p := by
      simp only [List.length_drop]
      omega
    rcases pref_of_append hpre with ⟨hle, -⟩ | ⟨-, hApre, -⟩
    · rw [hAlen] at hle
      have hc : ctx26.length = 26 := by decide
      omega
    · have hAne : (g ++ m).drop q ≠ [] := by
        apply List.ne_nil_of_length_pos
        rw [hAlen]
        omega
      have hgmne : g ++ m ≠ [] := by
        apply List.ne_nil_of_length_pos
        omega
      have hmne : m ≠ [] := by
        rw [hm]
        simp
      have hm2 : m = (serverHttps ++ host ++ [':']) ++ ds := by
        rw [hm]
        simp
      have hq1 : (g ++ m).getLast? = some (ds.getLast hds) := by
        rw [List.getLast?_append_of_ne_nil _ hmne, hm2,
          List.getLast?_append_of_ne_nil _ hds]
        exact List.getLast?_eq_getLast ds hds
      have hq2 : (g ++ m).getLast? = some ((g ++ m).getLast hgmne) :=
        List.getLast?_eq_getLast _ hgmne
      have hlasteq : (g ++ m).getLast hgmne = ds.getLast hds := by
        have := hq2.symm.trans hq1
        injection this
      have hmem : (g ++ m).getLast hgmne ∈ (g ++ m).drop q :=
        getLast_mem_suffix (List.drop_suffix q (g ++ m)) hAne hgmne
      have hmemctx : (g ++ m).getLast hgmne ∈ ctx26 := hApre.sublist.mem hmem
      have hdig2 : ((g ++ m).getLast hgmne).isDigit = true := by
        rw [hlasteq]
        exact hdig _ (List.getLast_mem hds)
      rw [ctx26_no_digit _ hmemctx] at hdig2
      exact absurd hdig2 (by simp)

theorem repl_infix_sub {repl cs : List Char}
    (h : ∃ i, (matchLoopback (cs.drop i)).isSome = true) :
    repl <:+: subLoopback repl cs := by
  obtain ⟨i, hi⟩ := h
  cases hf : firstMatch cs with
  | none =>
    rw [firstMatch_none hf i] at hi
    exact absurd hi (by simp)
  | some gmr =>
    obtain ⟨g, m, rest⟩ := gmr
    rw [subLoopback_decomp hf]
    exact ⟨g, subLoopback repl rest, by simp⟩

theorem pat6443_isSome {t : List Char}
    (h : "server: https://localhost:6443".toList <+: t) :
    (matchLoopback t).isSome = true := by
  rw [matchLoopback_isSome]
  refine ⟨lhChars, '6', Or.inl rfl, by decide, ?_⟩
  refine List.IsPrefix.trans ?_ h
  decide

theorem noLh_sub {cs : List Char}
    (hl : ∀ i, lhChars <+: cs.drop i → 16 ≤ i ∧ ctxAt (cs.drop (i - 16)) = true) :
    ∀ j, ¬ (lhChars <+:
      (subLoopback "server: https://203.0.113.5:32768".toList cs).drop j) := by
  have main : ∀ n cs, cs.length ≤ n →
      (∀ i, lhChars <+: cs.drop i → 16 ≤ i ∧ ctxAt (cs.drop (i - 16)) = true) →
      ∀ j, ¬ (lhChars <+:
        (subLoopback "server: https://203.0.113.5:32768".toList cs).drop j) := by
    intro n
    induction n with
    | zero =>
      intro cs hlen hl2 j
      have hnil : cs = [] := List.eq_nil_of_length_eq_zero (Nat.le_zero.mp hlen)
      subst hnil
      rw [subLoopback_nil, List.drop_nil]
      intro hp
      exact absurd (List.prefix_nil.mp hp) (by decide)
    | succ n ih =>
      intro cs hlen hl2 j
      cases hf : firstMatch cs with
      | none =>
        rw [subLoopback_of_no_match hf]
        intro hp
        obtain ⟨h16, hctx⟩ := hl2 j hp
        have hsome := ctxAt_match hctx
        rw [firstMatch_none hf (j - 16)] at hsome
        exact absurd hsome (by simp)
      | some gmr =>
        obtain ⟨g, m, rest⟩ := gmr
        obtain ⟨hceq, hmm, hgap⟩ := firstMatch_some hf
        rw [subLoopback_decomp hf]
        intro hp
        rw [List.drop_append_eq_append_drop] at hp
        have hlh9 : lhChars.length = 9 := by decide
        have hR2len : ("server: https://203.0.113.5:32768".toList).length = 33 := by
          decide
        have hrestlen : rest.length ≤ n := by
          obtain ⟨host, ds, hhost, -, -, hm, -, -⟩ := matchLoopback_some hmm
          have h3 : 16 ≤ m.length := by
            rw [hm]
            simp only [List.length_append, List.length_cons, serverHttps_len]
            omega
          have h2 := congrArg List.length hceq
          simp only [List.length_append] at h2
          omega
        have ihrest := ih rest hrestlen (lOnly_rest hf hl2)
        rcases pref_of_append hp with ⟨-, hing⟩ | ⟨hglt, hgpre, hrem⟩
        · by_cases hjg : j < g.length
          · have hcsj : cs.drop j =
                g.drop j ++ (m ++ rest).drop (j - g.length) := by
              rw [hceq, List.append_assoc, List.drop_append_eq_append_drop]
            have hcs2 : lhChars <+: cs.drop j := by
              rw [hcsj]
              exact hing.trans (List.prefix_append _ _)
            obtain ⟨h16, hctx⟩ := hl2 j hcs2
            have hsome := ctxAt_match hctx
            rw [hgap (j - 16) (by omega)] at hsome
            exact absurd hsome (by simp)
          · push_neg at hjg
            rw [List.drop_of_length_le hjg] at hing
            exact absurd (List.prefix_nil.mp hing) (by decide)
        · by_cases hjg : j < g.length
          · have hjg0 : j - g.length = 0 := by omega
            rw [hjg0, List.drop_zero] at hrem
            rcases pref_of_append hrem with ⟨-, hinR⟩ | ⟨hlen2, -, -⟩
            · set t := (g.drop j).length with htdef
              have ht1 : 1 ≤ t := by
                rw [htdef]
                simp only [List.length_drop]
                omega
              have ht8 : t ≤ 8 := by
                rw [hlh9] at hglt
                omega
              interval_cases t <;> exact absurd hinR (by decide)
            · rw [hR2len] at hlen2
              have hlen3 : (lhChars.drop (g.drop j).length).length ≤ 9 := by
                simp [hlh9]
              omega
          · push_neg at hjg
            have h0 : (g.drop j).length = 0 := by
              simp only [List.length_drop]
              omega
            rw [h0, List.drop_zero] at hrem
            rw [List.drop_append_eq_append_drop] at hrem
            rcases pref_of_append hrem with ⟨hle, hinR⟩ | ⟨hlt2, hrpre, hrem2⟩
            · have hj24 : j - g.length ≤ 24 := by
                rw [hlh9] at hle
                simp only [List.length_drop, hR2len] at hle
                omega
              set j2 := j - g.length with hj2def
              interval_cases j2 <;> exact absurd hinR (by decide)
            · by_cases hj33 : j - g.length < 33
              · have hj25 : 25 ≤ j - g.length := by
                  simp only [List.length_drop, hR2len, hlh9] at hlt2
                  omega
                set j2 := j - g.length with hj2def
                have hj32 : j2 ≤ 32 := by omega
                interval_cases j2 <;> exact absurd hrpre (by decide)
              · push_neg at hj33
                have hempty :
                    ("server: https://203.0.113.5:32768".toList).drop (j - g.length)
                      = [] := by
                  apply List.drop_of_length_le
                  rw [hR2len]
                  omega
                rw [hempty] at hrem2
                simp only [List.length_nil, List.drop_zero] at hrem2
                exact ihrest _ hrem2
  exact fun j => main cs.length cs (Nat.le_refl _) hl j

/-- C2 counterexample: the claim fails for a credentials text in which
`localhost` also occurs outside the loopback server line: the rewrite
replaces only the matched substring, and the stray `localhost` survives in
the output. -/
theorem claim_C2_counterexample :
    "server: https://localhost:6443".toList <:+:
      "server: https://localhost:6443 localhost".toList ∧
    lhChars <:+:
      subLoopback ("server: " ++ get_api_server_url "203.0.113.5" "32768").toList
        "server: https://localhost:6443 localhost".toList := by
  constructor
  · decide
  · decide

/-- C2 amended: for every credentials text containing
`server: https://localhost:6443` and in which every occurrence of
`localhost` lies inside a substring matching
`server: https://localhost:<digits>`, rewriting with the resolved endpoint
`https://203.0.113.5:32768` yields a text containing
`server: https://203.0.113.5:32768` and no occurrence of `localhost`. -/
theorem claim_C2 (cs : List Char)
    (hocc : "server: https://localhost:6443".toList <:+: cs)
    (hctx : lhOnlyInMatches cs = true) :
    ("server: " ++ get_api_server_url "203.0.113.5" "32768").toList <:+:
      subLoopback ("server: " ++ get_api_server_url "203.0.113.5" "32768").toList cs ∧
    ¬ (lhChars <:+:
      subLoopback ("server: " ++ get_api_server_url "203.0.113.5" "32768").toList cs) := by
  have hrepl : ("server: " ++ get_api_server_url "203.0.113.5" "32768").toList =
      "server: https://203.0.113.5:32768".toList := by decide
  rw [hrepl]
  constructor
  · apply repl_infix_sub
    obtain ⟨i, hpre⟩ := infix_iff_drop.mp hocc
    exact ⟨i, pat6443_isSome hpre⟩
  · intro hin
    obtain ⟨j, hpre⟩ := infix_iff_drop.mp hin
    exact noLh_sub (lhOnly_spec hctx) j hpre

/-- C2 witness: instantiation of the amended claim on a small kubeconfig
whose only `localhost` occurrence is the loopback server line. -/
theorem claim_C2_witness :
    ("server: https://localhost:6443".toList <:+:
      "clusters:\n- cluster:\n    server: https://localhost:6443\n".toList) ∧
    lhOnlyInMatches
      "clusters:\n- cluster:\n    server: https://localhost:6443\n".toList = true ∧
    (("server: " ++ get_api_server_url "203.0.113.5" "32768").toList <:+:
      subLoopback ("server: " ++ get_api_server_url "203.0.113.5" "32768").toList
        "clusters:\n- cluster:\n    server: https://localhost:6443\n".toList ∧
    ¬ (lhChars <:+:
      subLoopback ("server: " ++ get_api_server_url "203.0.113.5" "32768").toList
        "clusters:\n- cluster:\n    server: https://localhost:6443\n".toList)) :=
  ⟨by decide, by decide, claim_C2 _ (by decide) (by decide)⟩

theorem sh_drop_not_pref : ∀ k, 1 ≤ k → k ≤ 15 →
    ¬ (serverHttps.drop k <+: serverHttps) := by
  intro k h1 h2
  interval_cases k <;> decide

theorem sh_space : (' ' : Char) ∈ serverHttps := by decide

theorem sh_no_digit : ∀ c ∈ serverHttps, c.isDigit = false := by decide

theorem digit_ne_space {c : Char} (h : c.isDigit = true) : c ≠ ' ' := by
  intro he
  subst he
  exact absurd h (by decide)

theorem repl_getLast {H P : List Char} (hPne : P ≠ []) :
    (serverHttps ++ (H ++ ':' :: P)).getLast? = some (P.getLast hPne) := by
  rw [List.getLast?_append_of_ne_nil _ (by simp : H ++ ':' :: P ≠ [])]
  rw [List.getLast?_append_of_ne_nil _ (by simp : ':' :: P ≠ [])]
  rw [show (':' :: P) = [':'] ++ P from rfl]
  rw [List.getLast?_append_of_ne_nil _ hPne]
  exact List.getLast?_eq_getLast P hPne

theorem no_match_inside_repl {H P : List Char} (hHs : ' ' ∉ H) (hPne : P ≠ [])
    (hPd : ∀ c ∈ P, c.isDigit = true) :
    ∀ j X, 1 ≤ j → j < (serverHttps ++ (H ++ ':' :: P)).length →
      matchLoopback ((serverHttps ++ (H ++ ':' :: P)).drop j ++ X) = none := by
  intro j X h1 h2
  rw [← Option.not_isSome_iff_eq_none]
  intro hs
  obtain ⟨host, d, hhost, hd, hpre⟩ := matchLoopback_isSome.mp hs
  have hsh : serverHttps <+: (serverHttps ++ (H ++ ':' :: P)).drop j ++ X := by
    refine List.IsPrefix.trans ?_ hpre
    exact ⟨host ++ ':' :: [d], by simp⟩
  rcases pref_of_append hsh with ⟨hle, hin⟩ | ⟨hlt, hin, -⟩
  · by_cases hj16 : j < 16
    · have hsplit : (serverHttps ++ (H ++ ':' :: P)).drop j
          = serverHttps.drop j ++ (H ++ ':' :: P) := by
        rw [List.drop_append_eq_append_drop]
        rw [show j - serverHttps.length = 0 from by rw [serverHttps_len]; omega]
        rw [List.drop_zero]
      rw [hsplit] at hin
      rcases pref_of_append hin with ⟨hle2, -⟩ | ⟨-, hbad, -⟩
      · simp only [List.length_drop, serverHttps_len] at hle2
        omega
      · exact sh_drop_not_pref j h1 (by omega) hbad
    · push_neg at hj16
      have hsplit : (serverHttps ++ (H ++ ':' :: P)).drop j
          = (H ++ ':' :: P).drop (j - serverHttps.length) := by
        rw [List.drop_append_eq_append_drop]
        rw [List.drop_of_length_le (by rw [serverHttps_len]; omega)]
        rw [List.nil_append]
      rw [hsplit] at hin
      have hmem : (' ' : Char) ∈ (H ++ ':' :: P).drop (j - serverHttps.length) :=
        hin.sublist.mem sh_space
      have hmem2 : (' ' : Char) ∈ H ++ ':' :: P :=
        (List.drop_sublist _ _).mem hmem
      rcases List.mem_append.mp hmem2 with hmh | hmp
      · exact hHs hmh
      · rcases List.mem_cons.mp hmp with hc | hp
        · exact absurd hc.symm (by decide)
        · exact digit_ne_space (hPd _ hp) rfl
  · have hRne : (serverHttps ++ (H ++ ':' :: P)).drop j ≠ [] := by
      apply List.ne_nil_of_length_pos
      simp only [List.length_drop]
      omega
    have hRne2 : serverHttps ++ (H ++ ':' :: P) ≠ [] := by simp
    have hlast : (serverHttps ++ (H ++ ':' :: P)).getLast hRne2 = P.getLast hPne := by
      have hq1 := repl_getLast hPne (H := H)
      have hq2 := List.getLast?_eq_getLast (serverHttps ++ (H ++ ':' :: P)) hRne2
      have := hq2.symm.trans hq1
      injection this
    have hmem : (serverHttps ++ (H ++ ':' :: P)).getLast hRne2
        ∈ (serverHttps ++ (H ++ ':' :: P)).drop j :=
      getLast_mem_suffix (List.drop_suffix _ _) hRne hRne2
    have hmemsh : (serverHttps ++ (H ++ ':' :: P)).getLast hRne2 ∈ serverHttps :=
      hin.sublist.mem hmem
    have hdigl : ((serverHttps ++ (H ++ ':' :: P)).getLast hRne2).isDigit = true := by
      rw [hlast]
      exact hPd _ (List.getLast_mem hPne)
    rw [sh_no_digit _ hmemsh] at hdigl
    exact absurd hdigl (by simp)

theorem pre_host_eq {A H W : List Char} {d : Char}
    (h : A ++ ':' :: [d] <+: H ++ ':' :: W) (hA : ':' ∉ A) (hH : ':' ∉ H) :
    H = A := by
  have hA2 : A <+: H ++ ':' :: W := (List.prefix_append A (':' :: [d])).trans h
  rcases lt_trichotomy A.length H.length with hlt | heq | hgt
  · exfalso
    have h1 : A ++ [':'] <+: H ++ ':' :: W := by
      refine List.IsPrefix.trans ?_ h
      exact ⟨[d], by simp⟩
    rcases pref_of_append h1 with ⟨-, hin⟩ | ⟨hbad, -, -⟩
    · exact hH (hin.sublist.mem (by simp : (':' : Char) ∈ A ++ [':']))
    · simp only [List.length_append, List.length_singleton] at hbad
      omega
  · rcases pref_of_append hA2 with ⟨-, hin⟩ | ⟨hbad, -, -⟩
    · exact (hin.eq_of_length heq).symm
    · omega
  · exfalso
    have h1 : H ++ [':'] <+: H ++ ':' :: W := ⟨W, by simp⟩
    rcases List.prefix_or_prefix_of_prefix h1 hA2 with hp | hp
    · exact hA (hp.sublist.mem (by simp : (':' : Char) ∈ H ++ [':']))
    · have hlen := hp.length_le
      simp only [List.length_append, List.length_singleton] at hlen
      have : A = H ++ [':'] := hp.eq_of_length (by simp; omega)
      exact hA (by rw [this]; simp)

theorem no_match_at_repl {H P : List Char} (hHc : ':' ∉ H)
    (hlh : H ≠ lhChars) (hlp : H ≠ lpChars) :
    ∀ X, matchLoopback ((serverHttps ++ (H ++ ':' :: P)) ++ X) = none := by
  intro X
  rw [← Option.not_isSome_iff_eq_none]
  intro hs
  obtain ⟨host, d, hhost, hd, hpre⟩ := matchLoopback_isSome.mp hs
  have hpre2 : host ++ ':' :: [d] <+: H ++ ':' :: (P ++ X) := by
    have e1 : serverHttps ++ host ++ ':' :: [d]
        = serverHttps ++ (host ++ ':' :: [d]) := by simp
    have e2 : (serverHttps ++ (H ++ ':' :: P)) ++ X
        = serverHttps ++ (H ++ ':' :: (P ++ X)) := by simp
    rw [e1, e2] at hpre
    exact (List.prefix_append_right_inj serverHttps).mp hpre
  have hhc : ':' ∉ host := by rcases hhost with rfl | rfl <;> decide
  have hHeq : H = host := pre_host_eq hpre2 hhc hHc
  rcases hhost with rfl | rfl
  · exact hlh hHeq
  · exact hlp hHeq

theorem match_at_repl_self {host P X : List Char}
    (hhost : host = lhChars ∨ host = lpChars) (hPne : P ≠ [])
    (hPd : ∀ c ∈ P, c.isDigit = true) (hX : headNonDigit X = true) :
    matchLoopback ((serverHttps ++ (host ++ ':' :: P)) ++ X) =
      some (serverHttps ++ host ++ ':' :: P, X) := by
  have e : (serverHttps ++ (host ++ ':' :: P)) ++ X
      = serverHttps ++ host ++ ':' :: (P ++ X) := by simp
  rw [e]
  exact matchLoopback_build hhost hPne hPd hX

theorem headNonDigit_sub {B rest : List Char} (h : headNonDigit rest = true) :
    headNonDigit (subLoopback (serverHttps ++ B) rest) = true := by
  cases rest with
  | nil =>
    rw [subLoopback_nil]
    exact h
  | cons c cs =>
    cases hm : matchLoopback (c :: cs) with
    | some p =>
      obtain ⟨m, r⟩ := p
      rw [subLoopback_match hm]
      rfl
    | none =>
      rw [subLoopback_cons_of_none hm]
      exact h

theorem sub_walk {H P : List Char} (hHs : ' ' ∉ H) (hPne : P ≠ [])
    (hPd : ∀ c ∈ P, c.isDigit = true) :
    ∀ X j, 1 ≤ j →
      subLoopback (serverHttps ++ (H ++ ':' :: P))
          ((serverHttps ++ (H ++ ':' :: P)).drop j ++ X) =
        (serverHttps ++ (H ++ ':' :: P)).drop j ++
          subLoopback (serverHttps ++ (H ++ ':' :: P)) X := by
  have main : ∀ L X j, (serverHttps ++ (H ++ ':' :: P)).length - j = L → 1 ≤ j →
      subLoopback (serverHttps ++ (H ++ ':' :: P))
          ((serverHttps ++ (H ++ ':' :: P)).drop j ++ X) =
        (serverHttps ++ (H ++ ':' :: P)).drop j ++
          subLoopback (serverHttps ++ (H ++ ':' :: P)) X := by
    intro L
    induction L with
    | zero =>
      intro X j hL h1
      have hnil : (serverHttps ++ (H ++ ':' :: P)).drop j = [] :=
        List.drop_of_length_le (by omega)
      rw [hnil]
      simp
    | succ L ihL =>
      intro X j hL h1
      have hjlt : j < (serverHttps ++ (H ++ ':' :: P)).length := by omega
      have hdropc : (serverHttps ++ (H ++ ':' :: P)).drop j
          = (serverHttps ++ (H ++ ':' :: P))[j] ::
              (serverHttps ++ (H ++ ':' :: P)).drop (j + 1) :=
        List.drop_eq_getElem_cons hjlt
      have hnone2 : matchLoopback ((serverHttps ++ (H ++ ':' :: P))[j] ::
          ((serverHttps ++ (H ++ ':' :: P)).drop (j + 1) ++ X)) = none := by
        rw [← List.cons_append, ← hdropc]
        exact no_match_inside_repl hHs hPne hPd j X h1 hjlt
      rw [hdropc, List.cons_append, subLoopback_cons_of_none hnone2]
      rw [ihL X (j + 1) (by omega) (by omega)]
      rfl
  intro X j h1
  exact main ((serverHttps ++ (H ++ ':' :: P)).length - j) X j rfl h1

theorem take_shift (u T : List Char) (n : Nat) :
    (u ++ T).take (u.length + n) = u ++ T.take n := by
  rw [List.take_append_eq_append_take]
  rw [List.take_of_length_le (by omega)]
  rw [show u.length + n - u.length = n from by omega]

theorem no_new_match_in_gap {s m rest Z B : List Char} (hs : s ≠ [])
    (hold : matchLoopback (s ++ (m ++ rest)) = none)
    (hm : matchLoopback (m ++ rest) = some (m, rest)) :
    matchLoopback (s ++ ((serverHttps ++ B) ++ Z)) = none := by
  rw [← Option.not_isSome_iff_eq_none]
  intro hsome
  obtain ⟨host, d, hhost, hd, hpre⟩ := matchLoopback_isSome.mp hsome
  have hhostlen : host.length = 9 := by rcases hhost with rfl | rfl <;> decide
  have hneedle : (serverHttps ++ host ++ ':' :: [d]).length = 27 := by
    simp only [List.length_append, List.length_cons, List.length_singleton,
      serverHttps_len, hhostlen]
    simp
  obtain ⟨host2, ds2, hhost2, hds2, hdig2, hm2, -, -⟩ := matchLoopback_some hm
  by_cases hk : 11 ≤ s.length
  · have e1 : ((serverHttps ++ B) ++ Z).take 16 = serverHttps := by
      rw [List.append_assoc]
      conv_lhs => rw [show (16 : Nat) = serverHttps.length from serverHttps_len.symm]
      exact List.take_left _ _
    have e2 : (m ++ rest).take 16 = serverHttps := by
      rw [hm2]
      simp only [List.append_assoc, List.cons_append]
      conv_lhs => rw [show (16 : Nat) = serverHttps.length from serverHttps_len.symm]
      exact List.take_left _ _
    have htake : (s ++ ((serverHttps ++ B) ++ Z)).take (s.length + 16)
        = (s ++ (m ++ rest)).take (s.length + 16) := by
      rw [take_shift s ((serverHttps ++ B) ++ Z) 16, take_shift s (m ++ rest) 16, e1, e2]
    have h27 : (serverHttps ++ host ++ ':' :: [d]).length ≤ s.length + 16 := by
      rw [hneedle]
      omega
    have hneedle_old : (serverHttps ++ host ++ ':' :: [d]) <+: s ++ (m ++ rest) := by
      rw [List.prefix_iff_eq_take]
      rw [show (s ++ (m ++ rest)).take (serverHttps ++ host ++ ':' :: [d]).length
          = ((s ++ (m ++ rest)).take (s.length + 16)).take
              (serverHttps ++ host ++ ':' :: [d]).length from by
        rw [List.take_take, min_eq_left h27]]
      rw [← htake]
      rw [List.take_take, min_eq_left h27]
      exact List.prefix_iff_eq_take.mp hpre
    have hsome_old : (matchLoopback (s ++ (m ++ rest))).isSome = true :=
      matchLoopback_isSome.mpr ⟨host, d, hhost, hd, hneedle_old⟩
    rw [hold] at hsome_old
    exact absurd hsome_old (by simp)
  · push_neg at hk
    have hk1 : 1 ≤ s.length := List.length_pos.mpr hs
    have hshU : serverHttps <+: s ++ ((serverHttps ++ B) ++ Z) := by
      refine List.IsPrefix.trans ?_ hpre
      exact ⟨host ++ ':' :: [d], by simp⟩
    have hU16 : serverHttps = (s ++ ((serverHttps ++ B) ++ Z)).take 16 := by
      have := List.prefix_iff_eq_take.mp hshU
      rw [serverHttps_len] at this
      exact this
    have hd1 : (s ++ ((serverHttps ++ B) ++ Z)).drop s.length = (serverHttps ++ B) ++ Z :=
      List.drop_left _ _
    have hd2 : (s ++ ((serverHttps ++ B) ++ Z)).drop s.length
        = serverHttps.drop s.length ++ (s ++ ((serverHttps ++ B) ++ Z)).drop 16 := by
      conv_lhs =>
        rw [← List.take_append_drop 16 (s ++ ((serverHttps ++ B) ++ Z)), ← hU16]
      rw [List.drop_append_eq_append_drop]
      rw [show s.length - serverHttps.length = 0 from by rw [serverHttps_len]; omega]
      rw [List.drop_zero]
    have hcomb : serverHttps <+:
        serverHttps.drop s.length ++ (s ++ ((serverHttps ++ B) ++ Z)).drop 16 := by
      rw [← hd2, hd1, List.append_assoc]
      exact ⟨B ++ Z, rfl⟩
    rcases pref_of_append hcomb with ⟨hle, -⟩ | ⟨-, hbad, -⟩
    · simp only [List.length_drop, serverHttps_len] at hle
      omega
    · exact sh_drop_not_pref s.length hk1 (by omega) hbad

theorem sub_pass {H P : List Char} (hHc : ':' ∉ H) (hHs : ' ' ∉ H)
    (hPne : P ≠ []) (hPd : ∀ c ∈ P, c.isDigit = true) :
    ∀ g m rest Z,
      (∀ i, i < g.length → matchLoopback ((g ++ (m ++ rest)).drop i) = none) →
      matchLoopback (m ++ rest) = some (m, rest) →
      headNonDigit Z = true →
      subLoopback (serverHttps ++ (H ++ ':' :: P))
          (g ++ ((serverHttps ++ (H ++ ':' :: P)) ++ Z))
        = g ++ ((serverHttps ++ (H ++ ':' :: P)) ++
            subLoopback (serverHttps ++ (H ++ ':' :: P)) Z) := by
  intro g
  induction g with
  | nil =>
    intro m rest Z hgap hm hZ
    simp only [List.nil_append]
    by_cases hHl : H = lhChars ∨ H = lpChars
    · have hmatch := match_at_repl_self hHl hPne hPd hZ
      rw [subLoopback_match hmatch]
    · push_neg at hHl
      have hnone := no_match_at_repl hHc hHl.1 hHl.2 (P := P) Z
      have hR0 : (serverHttps ++ (H ++ ':' :: P)) ++ Z
          = 's' :: (("erver: https://".toList ++ (H ++ ':' :: P)) ++ Z) := rfl
      rw [hR0]
      rw [subLoopback_cons_of_none (by rw [← hR0]; exact hnone)]
      have htail : ("erver: https://".toList ++ (H ++ ':' :: P)) ++ Z
          = (serverHttps ++ (H ++ ':' :: P)).drop 1 ++ Z := rfl
      rw [htail, sub_walk hHs hPne hPd Z 1 (Nat.le_refl 1)]
      rfl
  | cons c g ihg =>
    intro m rest Z hgap hm hZ
    have hold0 : matchLoopback ((c :: g) ++ (m ++ rest)) = none := by
      have := hgap 0 (by simp)
      rwa [List.drop_zero] at this
    have hnone := no_new_match_in_gap (s := c :: g) (by simp) hold0 hm
      (B := H ++ ':' :: P) (Z := Z)
    rw [List.cons_append] at hnone
    rw [List.cons_append, subLoopback_cons_of_none hnone]
    rw [ihg m rest Z ?_ hm hZ]
    · rfl
    · intro i hi
      have := hgap (i + 1) (by simpa using Nat.succ_lt_succ hi)
      rwa [List.cons_append, List.drop_succ_cons] at this

theorem sub_idem_chars {H P : List Char} (hHc : ':' ∉ H) (hHs : ' ' ∉ H)
    (hPne : P ≠ []) (hPd : ∀ c ∈ P, c.isDigit = true) :
    ∀ cs, subLoopback (serverHttps ++ (H ++ ':' :: P))
        (subLoopback (serverHttps ++ (H ++ ':' :: P)) cs)
      = subLoopback (serverHttps ++ (H ++ ':' :: P)) cs := by
  have main : ∀ n cs, cs.length ≤ n →
      subLoopback (serverHttps ++ (H ++ ':' :: P))
          (subLoopback (serverHttps ++ (H ++ ':' :: P)) cs)
        = subLoopback (serverHttps ++ (H ++ ':' :: P)) cs := by
    intro n
    induction n with
    | zero =>
      intro cs hlen
      have hnil : cs = [] := List.eq_nil_of_length_eq_zero (Nat.le_zero.mp hlen)
      subst hnil
      rfl
    | succ n ih =>
      intro cs hlen
      cases hf : firstMatch cs with
      | none =>
        rw [subLoopback_of_no_match hf]
        exact subLoopback_of_no_match hf
      | some gmr =>
        obtain ⟨g, m, rest⟩ := gmr
        obtain ⟨hceq, hmm, hgap⟩ := firstMatch_some hf
        obtain ⟨host2, ds2, hhost2, -, -, hm2, -, hnd⟩ := matchLoopback_some hmm
        have hrestlen : rest.length ≤ n := by
          have h3 : 16 ≤ m.length := by
            rw [hm2]
            simp only [List.length_append, List.length_cons, serverHttps_len]
            omega
          have h2 := congrArg List.length hceq
          simp only [List.length_append] at h2
          omega
        have hgap2 : ∀ i, i < g.length →
            matchLoopback ((g ++ (m ++ rest)).drop i) = none := by
          intro i hi
          have := hgap i hi
          rwa [hceq, List.append_assoc] at this
        have hZ : headNonDigit (subLoopback (serverHttps ++ (H ++ ':' :: P)) rest)
            = true := headNonDigit_sub hnd
        rw [subLoopback_decomp hf]
        rw [sub_pass hHc hHs hPne hPd g m rest _ hgap2 hmm hZ]
        rw [ih rest hrestlen]
  exact fun cs => main cs.length cs (Nat.le_refl _)

/-- C9: the credential rewrite is idempotent for every resolved endpoint of
the form `https://<host>:<port>` in which the host is a hostname token (it
contains no colon and no space, as produced by the container runtime) and
the port is a non-empty digit string: applying the loopback-server
substitution twice with the same endpoint yields the same result as applying
it once, including when the host is itself `localhost` or `127.0.0.1`. -/
theorem claim_C9 (host port : String) (cs : List Char)
    (hhc : ':' ∉ host.toList) (hhs : ' ' ∉ host.toList)
    (hpne : port.toList ≠ []) (hpd : ∀ c ∈ port.toList, c.isDigit = true) :
    subLoopback ("server: " ++ get_api_server_url host port).toList
        (subLoopback ("server: " ++ get_api_server_url host port).toList cs) =
      subLoopback ("server: " ++ get_api_server_url host port).toList cs := by
  have hrepl : ("server: " ++ get_api_server_url host port).toList
      = serverHttps ++ (host.toList ++ ':' :: port.toList) := by
    simp only [get_api_server_url, String.toList, String.data_append]
    rw [show ("server: ".data : List Char) ++ ("https://".data ++ host.data
        ++ ":".data ++ port.data) = ("server: ".data ++ "https://".data)
        ++ (host.data ++ (":".data ++ port.data)) from by simp]
    rfl
  rw [hrepl]
  exact sub_idem_chars hhc hhs hpne hpd cs

/-- C9 witness: instantiation at the endpoint `https://203.0.113.5:32768`
and a small kubeconfig text. -/
theorem claim_C9_witness :
    ((':' : Char) ∉ ("203.0.113.5" : String).toList ∧
      (' ' : Char) ∉ ("203.0.113.5" : String).toList ∧
      ("32768" : String).toList ≠ [] ∧
      (∀ c ∈ ("32768" : String).toList, c.isDigit = true)) ∧
    subLoopback ("server: " ++ get_api_server_url "203.0.113.5" "32768").toList
        (subLoopback ("server: " ++ get_api_server_url "203.0.113.5" "32768").toList
          "server: https://localhost:6443\n".toList) =
      subLoopback ("server: " ++ get_api_server_url "203.0.113.5" "32768").toList
        "server: https://localhost:6443\n".toList :=
  ⟨⟨by decide, by decide, by decide, by decide⟩,
   claim_C9 "203.0.113.5" "32768" _ (by decide) (by decide) (by decide) (by decide)⟩

end Envtest
